import Mathlib

/-!
Shallow embedding of the Minesweeper AI knowledge-base solver
(`minesweeper/minesweeper.py`) and verification of its specification.

Modelling conventions:
* A board cell is a pair of integers `(row, col)`; Python integers are `ℤ`.
* Python `set` objects whose iteration / `pop` order matters (the `cells`
  field of a `Sentence`, which the source drains with `set.pop()`) are
  modelled as duplicate-free `List`s; `pop` takes the head.  The source's
  pop order is implementation-defined, and no property proved below
  depends on the particular order chosen.
* The sets `moves_made`, `mines`, `safes`, whose iteration order is never
  observable in the verified operations, are modelled as `Finset`s.
* `print` calls are side effects with no bearing on state and are dropped.
-/

namespace MinesweeperProof

abbrev Cell := ℤ × ℤ

/-- A logical sentence about the game: a set of board cells and a count of
the number of those cells which are mines (`Sentence` in the source). -/
structure Sentence where
  cells : List Cell
  count : ℤ
deriving DecidableEq

/-- `Sentence.known_mines`: returns the cell set when `len(cells) == count`,
else `None` (source lines 114–122). -/
def Sentence.known_mines (s : Sentence) : Option (List Cell) :=
  if (s.cells.length : ℤ) = s.count then some s.cells else none

/-- `Sentence.known_safes`: returns the cell set when `count == 0`,
else `None` (source lines 124–132). -/
def Sentence.known_safes (s : Sentence) : Option (List Cell) :=
  if s.count = 0 then some s.cells else none

/-- `Sentence.mark_mine`: if the cell is present, remove it and decrement
the count (source lines 134–141). -/
def Sentence.mark_mine (s : Sentence) (cell : Cell) : Sentence :=
  if cell ∈ s.cells then { cells := s.cells.erase cell, count := s.count - 1 } else s

/-- `Sentence.mark_safe`: if the cell is present, remove it; the count is
unchanged (source lines 143–146). -/
def Sentence.mark_safe (s : Sentence) (cell : Cell) : Sentence :=
  if cell ∈ s.cells then { cells := s.cells.erase cell, count := s.count } else s

/-- Number of cells of `l` lying in the finite set `M` (the length of
`[c for c in l if c in M]`). -/
def countIn (M : Finset Cell) (l : List Cell) : ℕ :=
  (l.filter fun c => decide (c ∈ M)).length

/-- The state of the `MinesweeperAI` solver (source lines 149–168). -/
structure MinesweeperAI where
  height : ℤ
  width : ℤ
  moves_made : Finset Cell
  mines : Finset Cell
  safes : Finset Cell
  knowledge : List Sentence
deriving DecidableEq

/-- `MinesweeperAI.__init__`: fresh solver with empty knowledge. -/
def MinesweeperAI.init (height width : ℤ) : MinesweeperAI :=
  { height := height, width := width, moves_made := ∅, mines := ∅, safes := ∅,
    knowledge := [] }

/-- `MinesweeperAI.mark_mine`: add the cell to `mines` and update every
sentence (source lines 170–177). -/
def MinesweeperAI.mark_mine (st : MinesweeperAI) (cell : Cell) : MinesweeperAI :=
  { st with mines := insert cell st.mines,
            knowledge := st.knowledge.map fun s => s.mark_mine cell }

/-- `MinesweeperAI.mark_safe`: add the cell to `safes` and update every
sentence (source lines 179–187). -/
def MinesweeperAI.mark_safe (st : MinesweeperAI) (cell : Cell) : MinesweeperAI :=
  { st with safes := insert cell st.safes,
            knowledge := st.knowledge.map fun s => s.mark_safe cell }

/-- The 3×3 box around a cell, in the row-major order the source's nested
`range` loops visit it (the cell itself included; callers exclude it). -/
def neighborhood (cell : Cell) : List Cell :=
  [(cell.1 - 1, cell.2 - 1), (cell.1 - 1, cell.2), (cell.1 - 1, cell.2 + 1),
   (cell.1, cell.2 - 1), (cell.1, cell.2), (cell.1, cell.2 + 1),
   (cell.1 + 1, cell.2 - 1), (cell.1 + 1, cell.2), (cell.1 + 1, cell.2 + 1)]

/-- The candidate cell set (`mangoes`) built by `add_knowledge`
(source lines 205–213): neighbors of `cell` that are not `cell` itself,
not in `moves_made`, not in `safes`, and inside the grid bounds. -/
def candidateCells (st : MinesweeperAI) (cell : Cell) : List Cell :=
  (neighborhood cell).filter fun p =>
    decide (¬(p = cell ∨ p ∈ st.moves_made ∨ p ∈ st.safes) ∧
      0 ≤ p.1 ∧ p.1 < st.height ∧ 0 ≤ p.2 ∧ p.2 < st.width)

/-- `set.pop()` on the cells of the sentence at index `idx`: remove and
return the head of its cell list (the source pops an arbitrary element;
the head is the concrete choice of this model). -/
def popAt (st : MinesweeperAI) (idx : ℕ) : Option (Cell × MinesweeperAI) :=
  match st.knowledge[idx]? with
  | none => none
  | some s =>
    match s.cells with
    | [] => none
    | c :: rest =>
      some (c, { st with knowledge := st.knowledge.set idx { cells := rest, count := s.count } })

/-- The drain in the `count == 0` branch of the first propagation loop
(source lines 224–229): pop each cell of sentence `idx` and mark it safe. -/
def drainSafe1 (idx : ℕ) : ℕ → MinesweeperAI → MinesweeperAI
  | 0, st => st
  | fuel + 1, st =>
    match popAt st idx with
    | none => st
    | some (c, st1) => drainSafe1 idx fuel (st1.mark_safe c)

/-- The drain in the `count == len(cells)` branch of the first propagation
loop (source lines 230–235): pop each cell of sentence `idx` and mark it
a mine. -/
def drainMine1 (idx : ℕ) : ℕ → MinesweeperAI → MinesweeperAI
  | 0, st => st
  | fuel + 1, st =>
    match popAt st idx with
    | none => st
    | some (c, st1) => drainMine1 idx fuel (st1.mark_mine c)

/-- The drain of the second propagation loop (source lines 253–262): pop
each cell of sentence `idx`; cells in `mines` or `moves_made` are skipped,
every other cell is marked safe. -/
def drainSafe2 (idx : ℕ) : ℕ → MinesweeperAI → MinesweeperAI
  | 0, st => st
  | fuel + 1, st =>
    match popAt st idx with
    | none => st
    | some (c, st1) =>
      if c ∈ st1.mines ∨ c ∈ st1.moves_made then drainSafe2 idx fuel st1
      else drainSafe2 idx fuel (st1.mark_safe c)

/-- One step of the first propagation loop (source lines 223–235): the
sentence at `idx` is drained safe when its count is 0, drained mine when
its count equals its current size. -/
def loop1Body (st : MinesweeperAI) (idx : ℕ) : MinesweeperAI :=
  match st.knowledge[idx]? with
  | none => st
  | some e =>
    if e.count = 0 then drainSafe1 idx e.cells.length st
    else if e.count = (e.cells.length : ℤ) then drainMine1 idx e.cells.length st
    else st

/-- One step of the second propagation loop (source lines 245–263): when
the number of known mines among the sentence's cells equals its count,
drain the sentence, marking the non-mine non-queried cells safe. -/
def loop2Body (st : MinesweeperAI) (idx : ℕ) : MinesweeperAI :=
  match st.knowledge[idx]? with
  | none => st
  | some s =>
    if s.cells.length = 0 then st
    else if s.count = (countIn st.mines s.cells : ℤ) then
      drainSafe2 idx s.cells.length st
    else st

/-- The propagation run at the end of every `add_knowledge` call
(source lines 223–263): one pass of the trivial-resolution loop followed
by one pass of the mine-count loop.  (The list of sentences is iterated
by index; its length never changes during either loop.) -/
def propagate (st : MinesweeperAI) : MinesweeperAI :=
  let st1 := (List.range st.knowledge.length).foldl loop1Body st
  (List.range st1.knowledge.length).foldl loop2Body st1

/-- `MinesweeperAI.add_knowledge` (source lines 189–263): build the
candidate sentence, record the move, mark the observed cell safe, append
the sentence, then run the two propagation loops. -/
def MinesweeperAI.add_knowledge (st : MinesweeperAI) (cell : Cell) (count : ℤ) :
    MinesweeperAI :=
  let mangoes := candidateCells st cell
  let st1 := { st with moves_made := insert cell st.moves_made }
  let st2 := st1.mark_safe cell
  let st3 := { st2 with knowledge := st2.knowledge ++ [{ cells := mangoes, count := count }] }
  propagate st3

/-- `MinesweeperAI.make_random_move` (source lines 282–296): scan
`i ∈ range(width-1)`, `j ∈ range(height-1)` and return the first `(i, j)`
not in `mines` and not in `moves_made`; `None` when the scan is
exhausted. -/
def MinesweeperAI.make_random_move (st : MinesweeperAI) : Option Cell :=
  ((List.range (st.width - 1).toNat).flatMap fun i =>
    (List.range (st.height - 1).toNat).map fun j => ((i : ℤ), (j : ℤ))).find?
    fun p => decide (¬(p ∈ st.mines ∨ p ∈ st.moves_made))

/-- A public operation on the solver.  `make_safe_move` and
`make_random_move` only read the state (the source mutates nothing in
them), so as state transformers the two query operations are the
identity. -/
inductive Op where
  | addKnowledge : Cell → ℤ → Op
  | markSafe : Cell → Op
  | markMine : Cell → Op
  | safeMoveQuery : Op
  | randomMoveQuery : Op
deriving DecidableEq

/-- The state transformer of one public operation. -/
def applyOp (st : MinesweeperAI) : Op → MinesweeperAI
  | Op.addKnowledge c n => st.add_knowledge c n
  | Op.markSafe c => st.mark_safe c
  | Op.markMine c => st.mark_mine c
  | Op.safeMoveQuery => st
  | Op.randomMoveQuery => st

/-- Run a sequence of public operations from a state. -/
def runOps : MinesweeperAI → List Op → MinesweeperAI
  | st, [] => st
  | st, op :: rest => runOps (applyOp st op) rest

/-- The number of `add_knowledge` calls in a sequence of operations. -/
def countAdds : List Op → ℕ
  | [] => 0
  | Op.addKnowledge _ _ :: rest => countAdds rest + 1
  | _ :: rest => countAdds rest

/-- `Minesweeper.nearby_mines` (source lines 56–79) for a board whose mine
set is `M`: the number of mines within one row and column of `cell`, the
cell itself excluded, restricted to the grid bounds. -/
def nearby_mines (M : Finset Cell) (height width : ℤ) (cell : Cell) : ℤ :=
  ((neighborhood cell).filter fun p =>
    decide (p ≠ cell ∧ 0 ≤ p.1 ∧ p.1 < height ∧ 0 ≤ p.2 ∧ p.2 < width ∧ p ∈ M)).length

/-- One operation is truthful for the fixed mine set `M` in state `st`:
mines are only marked on cells of `M`, safes only on cells outside `M`,
and an observation reports the true neighbor mine count of a non-mine
cell. -/
def opTruthful (M : Finset Cell) (st : MinesweeperAI) : Op → Bool
  | Op.addKnowledge c n =>
      decide (c ∉ M) && decide (n = nearby_mines M st.height st.width c)
  | Op.markMine c => decide (c ∈ M)
  | Op.markSafe c => decide (c ∉ M)
  | Op.safeMoveQuery => true
  | Op.randomMoveQuery => true

/-- A sequence of operations is truthful for `M` when each operation is
truthful in the state it is applied to. -/
def truthfulRun (M : Finset Cell) : MinesweeperAI → List Op → Bool
  | _, [] => true
  | st, op :: rest => opTruthful M st op && truthfulRun M (applyOp st op) rest

/-- A sentence is healthy for the mine set `M`: its cell list is
duplicate-free and, unless it has been fully drained (empty cell list),
its count is the exact number of its cells that are mines of `M`. -/
def sentTruthful (M : Finset Cell) (s : Sentence) : Prop :=
  s.cells.Nodup ∧ (s.cells ≠ [] → (countIn M s.cells : ℤ) = s.count)

/-- The inductive invariant of truthful play: every marked mine is a real
mine, no marked safe is a mine, every queried cell is marked safe, and
every sentence is healthy. -/
def Inv (M : Finset Cell) (st : MinesweeperAI) : Prop :=
  (∀ c ∈ st.mines, c ∈ M) ∧ (∀ c ∈ st.safes, c ∉ M) ∧
  (∀ c ∈ st.moves_made, c ∈ st.safes) ∧ (∀ s ∈ st.knowledge, sentTruthful M s)

/-- The invariant with the sentence at index `idx` exempted from the
health requirement (used while a drain is part-way through consuming that
sentence). -/
def InvAt (M : Finset Cell) (st : MinesweeperAI) (idx : ℕ) : Prop :=
  (∀ c ∈ st.mines, c ∈ M) ∧ (∀ c ∈ st.safes, c ∉ M) ∧
  (∀ c ∈ st.moves_made, c ∈ st.safes) ∧
  (∀ k, k ≠ idx → ∀ s, st.knowledge[k]? = some s → sentTruthful M s)

/-- The knowledge-base configuration of the spec's subset-inference test
vector: constraints `{1,2,3} = 1` and `{1,2,3,4} = 2`, rendered with the
cells `(0,1), (0,2), (0,3), (0,4)` of a 1×6 grid; nothing is yet marked. -/
def subsetPairState : MinesweeperAI :=
  { height := 1, width := 6, moves_made := ∅, mines := ∅, safes := ∅,
    knowledge := [{ cells := [(0, 1), (0, 2), (0, 3)], count := 1 },
                  { cells := [(0, 1), (0, 2), (0, 3), (0, 4)], count := 2 }] }

/-- The state after flagging `(0,1)` as a mine on a fresh 2×2 solver and
then observing `(0,0)` with count 2: used to exhibit a sentence that
retains a cell already known to be a mine. -/
def mineRetainState : MinesweeperAI :=
  (MinesweeperAI.mark_mine (MinesweeperAI.init 2 2) (0, 1)).add_knowledge (0, 0) 2

/-- A state in which the cell `(0,0)` has been marked both a mine and safe
and the knowledge base is empty. -/
def doubleMarkState : MinesweeperAI :=
  ((MinesweeperAI.init 2 2).mark_mine (0, 0)).mark_safe (0, 0)

/- ------------------------------------------------------------------ -/
/- Helper lemmas.                                                      -/
/- ------------------------------------------------------------------ -/

theorem popAt_spec {st : MinesweeperAI} {idx : ℕ} {c : Cell} {st1 : MinesweeperAI}
    (h : popAt st idx = some (c, st1)) :
    ∃ s rest, st.knowledge[idx]? = some s ∧ s.cells = c :: rest ∧
      st1 = { st with knowledge := st.knowledge.set idx { cells := rest, count := s.count } } := by
  unfold popAt at h
  split at h
  · exact absurd h (by simp)
  · rename_i s hs
    split at h
    · exact absurd h (by simp)
    · rename_i c0 rest hc
      simp only [Option.some.injEq, Prod.mk.injEq] at h
      obtain ⟨rfl, rfl⟩ := h
      exact ⟨s, rest, hs, hc, rfl⟩

theorem mark_safe_frame (st : MinesweeperAI) (c : Cell) :
    (st.mark_safe c).knowledge.length = st.knowledge.length ∧
    (st.mark_safe c).moves_made = st.moves_made := by
  simp [MinesweeperAI.mark_safe]

theorem mark_mine_frame (st : MinesweeperAI) (c : Cell) :
    (st.mark_mine c).knowledge.length = st.knowledge.length ∧
    (st.mark_mine c).moves_made = st.moves_made := by
  simp [MinesweeperAI.mark_mine]

theorem drainSafe1_frame (idx : ℕ) (fuel : ℕ) :
    ∀ st : MinesweeperAI,
      (drainSafe1 idx fuel st).knowledge.length = st.knowledge.length ∧
      (drainSafe1 idx fuel st).moves_made = st.moves_made := by
  induction fuel with
  | zero => intro st; exact ⟨rfl, rfl⟩
  | succ n ih =>
    intro st
    cases h : popAt st idx with
    | none => simp [drainSafe1, h]
    | some p =>
      obtain ⟨c, st1⟩ := p
      obtain ⟨s, rest, _, _, rfl⟩ := popAt_spec h
      simp only [drainSafe1, h]
      refine ⟨?_, ?_⟩
      · rw [(ih _).1]; simp [MinesweeperAI.mark_safe]
      · rw [(ih _).2]; simp [MinesweeperAI.mark_safe]

theorem drainMine1_frame (idx : ℕ) (fuel : ℕ) :
    ∀ st : MinesweeperAI,
      (drainMine1 idx fuel st).knowledge.length = st.knowledge.length ∧
      (drainMine1 idx fuel st).moves_made = st.moves_made := by
  induction fuel with
  | zero => intro st; exact ⟨rfl, rfl⟩
  | succ n ih =>
    intro st
    cases h : popAt st idx with
    | none => simp [drainMine1, h]
    | some p =>
      obtain ⟨c, st1⟩ := p
      obtain ⟨s, rest, _, _, rfl⟩ := popAt_spec h
      simp only [drainMine1, h]
      refine ⟨?_, ?_⟩
      · rw [(ih _).1]; simp [MinesweeperAI.mark_mine]
      · rw [(ih _).2]; simp [MinesweeperAI.mark_mine]

theorem drainSafe2_frame (idx : ℕ) (fuel : ℕ) :
    ∀ st : MinesweeperAI,
      (drainSafe2 idx fuel st).knowledge.length = st.knowledge.length ∧
      (drainSafe2 idx fuel st).moves_made = st.moves_made := by
  induction fuel with
  | zero => intro st; exact ⟨rfl, rfl⟩
  | succ n ih =>
    intro st
    cases h : popAt st idx with
    | none => simp [drainSafe2, h]
    | some p =>
      obtain ⟨c, st1⟩ := p
      obtain ⟨s, rest, _, _, rfl⟩ := popAt_spec h
      simp only [drainSafe2, h]
      split
      · refine ⟨?_, ?_⟩
        · rw [(ih _).1]; simp
        · rw [(ih _).2]
      · refine ⟨?_, ?_⟩
        · rw [(ih _).1]; simp [MinesweeperAI.mark_safe]
        · rw [(ih _).2]; simp [MinesweeperAI.mark_safe]

theorem loop1Body_frame (st : MinesweeperAI) (idx : ℕ) :
    (loop1Body st idx).knowledge.length = st.knowledge.length ∧
    (loop1Body st idx).moves_made = st.moves_made := by
  unfold loop1Body
  split
  · exact ⟨rfl, rfl⟩
  · split
    · exact drainSafe1_frame idx _ st
    · split
      · exact drainMine1_frame idx _ st
      · exact ⟨rfl, rfl⟩

theorem loop2Body_frame (st : MinesweeperAI) (idx : ℕ) :
    (loop2Body st idx).knowledge.length = st.knowledge.length ∧
    (loop2Body st idx).moves_made = st.moves_made := by
  unfold loop2Body
  split
  · exact ⟨rfl, rfl⟩
  · split
    · exact ⟨rfl, rfl⟩
    · split
      · exact drainSafe2_frame idx _ st
      · exact ⟨rfl, rfl⟩

theorem foldl_frame (f : MinesweeperAI → ℕ → MinesweeperAI)
    (hf : ∀ st i, (f st i).knowledge.length = st.knowledge.length ∧
      (f st i).moves_made = st.moves_made) :
    ∀ (l : List ℕ) (st : MinesweeperAI),
      (l.foldl f st).knowledge.length = st.knowledge.length ∧
      (l.foldl f st).moves_made = st.moves_made := by
  intro l
  induction l with
  | nil => intro st; exact ⟨rfl, rfl⟩
  | cons i t ih =>
    intro st
    have h1 := hf st i
    have h2 := ih (f st i)
    exact ⟨h2.1.trans h1.1, h2.2.trans h1.2⟩

theorem propagate_frame (st : MinesweeperAI) :
    (propagate st).knowledge.length = st.knowledge.length ∧
    (propagate st).moves_made = st.moves_made := by
  unfold propagate
  have h1 := foldl_frame loop1Body loop1Body_frame (List.range st.knowledge.length) st
  have h2 := foldl_frame loop2Body loop2Body_frame
    (List.range ((List.range st.knowledge.length).foldl loop1Body st).knowledge.length)
    ((List.range st.knowledge.length).foldl loop1Body st)
  exact ⟨h2.1.trans h1.1, h2.2.trans h1.2⟩

theorem add_knowledge_frame (st : MinesweeperAI) (cell : Cell) (count : ℤ) :
    (st.add_knowledge cell count).knowledge.length = st.knowledge.length + 1 ∧
    (st.add_knowledge cell count).moves_made = insert cell st.moves_made := by
  unfold MinesweeperAI.add_knowledge
  have h := propagate_frame
    { MinesweeperAI.mark_safe { st with moves_made := insert cell st.moves_made } cell with
      knowledge := (MinesweeperAI.mark_safe { st with moves_made := insert cell st.moves_made }
        cell).knowledge ++ [{ cells := candidateCells st cell, count := count }] }
  simpa [MinesweeperAI.mark_safe] using h

/- ------------------------------------------------------------------ -/
/- Counting lemmas.                                                    -/
/- ------------------------------------------------------------------ -/

theorem countIn_cons_mem {M : Finset Cell} {c : Cell} (l : List Cell) (hc : c ∈ M) :
    countIn M (c :: l) = countIn M l + 1 := by
  simp [countIn, List.filter_cons, hc]

theorem countIn_cons_not_mem {M : Finset Cell} {c : Cell} (l : List Cell) (hc : c ∉ M) :
    countIn M (c :: l) = countIn M l := by
  simp [countIn, List.filter_cons, hc]

theorem countIn_erase_not_mem {M : Finset Cell} {c : Cell} (hc : c ∉ M) :
    ∀ l : List Cell, countIn M (l.erase c) = countIn M l := by
  intro l
  induction l with
  | nil => rfl
  | cons a t ih =>
    by_cases hac : a = c
    · subst hac
      rw [List.erase_cons_head, countIn_cons_not_mem t hc]
    · rw [List.erase_cons_tail (by simpa using fun h => hac h)]
      by_cases haM : a ∈ M
      · rw [countIn_cons_mem _ haM, countIn_cons_mem _ haM, ih]
      · rw [countIn_cons_not_mem _ haM, countIn_cons_not_mem _ haM, ih]

theorem countIn_erase_mem {M : Finset Cell} {c : Cell} (hc : c ∈ M) :
    ∀ l : List Cell, c ∈ l → countIn M (l.erase c) + 1 = countIn M l := by
  intro l
  induction l with
  | nil => intro h; exact absurd h (List.not_mem_nil c)
  | cons a t ih =>
    intro hmem
    by_cases hac : a = c
    · subst hac
      rw [List.erase_cons_head, countIn_cons_mem t hc]
    · have hct : c ∈ t := by
        cases List.mem_cons.mp hmem with
        | inl h => exact absurd h.symm hac
        | inr h => exact h
      rw [List.erase_cons_tail (by simpa using fun h => hac h)]
      by_cases haM : a ∈ M
      · rw [countIn_cons_mem _ haM, countIn_cons_mem _ haM, ← ih hct]
      · rw [countIn_cons_not_mem _ haM, countIn_cons_not_mem _ haM, ih hct]

theorem countIn_eq_zero {M : Finset Cell} {l : List Cell} (h : countIn M l = 0) :
    ∀ c ∈ l, c ∉ M := by
  intro c hc
  have hnil : l.filter (fun c => decide (c ∈ M)) = [] := List.eq_nil_of_length_eq_zero h
  have := List.filter_eq_nil_iff.mp hnil c hc
  simpa using this

theorem countIn_eq_length {M : Finset Cell} {l : List Cell} (h : countIn M l = l.length) :
    ∀ c ∈ l, c ∈ M := by
  intro c hc
  have hcp : List.countP (fun c => decide (c ∈ M)) l = l.length := by
    rw [List.countP_eq_length_filter]; exact h
  have := List.countP_eq_length.mp hcp c hc
  simpa using this

theorem countIn_mono {A B : Finset Cell} {l : List Cell} (hAB : ∀ c ∈ l, c ∈ A → c ∈ B) :
    countIn A l ≤ countIn B l := by
  unfold countIn
  rw [← List.countP_eq_length_filter, ← List.countP_eq_length_filter]
  exact List.countP_mono_left fun x hx hA => by
    simp only [decide_eq_true_eq] at hA ⊢
    exact hAB x hx hA

theorem countIn_subset_eq {A B : Finset Cell} :
    ∀ l : List Cell, (∀ c ∈ l, c ∈ A → c ∈ B) → countIn B l = countIn A l →
      ∀ c ∈ l, c ∈ B → c ∈ A := by
  intro l
  induction l with
  | nil => intro _ _ c hc; exact absurd hc (List.not_mem_nil c)
  | cons a t ih =>
    intro hAB heq c hc hcB
    by_cases haA : a ∈ A
    · have haB : a ∈ B := hAB a (by simp) haA
      rw [countIn_cons_mem t haA, countIn_cons_mem t haB] at heq
      have ht := ih (fun x hx => hAB x (List.mem_cons_of_mem a hx)) (by omega)
      cases List.mem_cons.mp hc with
      | inl h => exact h ▸ haA
      | inr h => exact ht c h hcB
    · by_cases haB : a ∈ B
      · rw [countIn_cons_mem t haB, countIn_cons_not_mem t haA] at heq
        have hle := countIn_mono (l := t) fun x hx => hAB x (List.mem_cons_of_mem a hx)
        omega
      · rw [countIn_cons_not_mem t haB, countIn_cons_not_mem t haA] at heq
        have ht := ih (fun x hx => hAB x (List.mem_cons_of_mem a hx)) heq
        cases List.mem_cons.mp hc with
        | inl h => exact absurd (h ▸ hcB) haB
        | inr h => exact ht c h hcB

/- ------------------------------------------------------------------ -/
/- Sentence health lemmas.                                             -/
/- ------------------------------------------------------------------ -/

theorem Sentence.mark_safe_count (s : Sentence) (c : Cell) :
    (s.mark_safe c).count = s.count := by
  unfold Sentence.mark_safe
  split <;> rfl

theorem sentTruthful_mark_mine {M : Finset Cell} {s : Sentence} {c : Cell}
    (hc : c ∈ M) (h : sentTruthful M s) : sentTruthful M (s.mark_mine c) := by
  obtain ⟨hnd, htr⟩ := h
  unfold Sentence.mark_mine
  split
  · rename_i hmem
    refine ⟨hnd.erase c, ?_⟩
    intro _
    have hne : s.cells ≠ [] := by
      intro h0
      rw [h0] at hmem
      exact absurd hmem (List.not_mem_nil c)
    have h1 := htr hne
    have h2 := countIn_erase_mem hc s.cells hmem
    dsimp only
    omega
  · exact ⟨hnd, htr⟩

theorem sentTruthful_mark_safe {M : Finset Cell} {s : Sentence} {c : Cell}
    (hc : c ∉ M) (h : sentTruthful M s) : sentTruthful M (s.mark_safe c) := by
  obtain ⟨hnd, htr⟩ := h
  unfold Sentence.mark_safe
  split
  · rename_i hmem
    refine ⟨hnd.erase c, ?_⟩
    intro _
    have hne : s.cells ≠ [] := by
      intro h0
      rw [h0] at hmem
      exact absurd hmem (List.not_mem_nil c)
    have h1 := htr hne
    have h2 := countIn_erase_not_mem hc s.cells
    dsimp only
    omega
  · exact ⟨hnd, htr⟩

/- ------------------------------------------------------------------ -/
/- Invariant preservation: the mark operations.                        -/
/- ------------------------------------------------------------------ -/

theorem getElem?_some_lt {α : Type} {l : List α} {i : ℕ} {a : α} (h : l[i]? = some a) :
    i < l.length := by
  by_contra hlt
  rw [List.getElem?_eq_none (by omega)] at h
  exact absurd h (by simp)

theorem Inv_mark_mine {M : Finset Cell} {st : MinesweeperAI} {c : Cell}
    (h : Inv M st) (hc : c ∈ M) : Inv M (st.mark_mine c) := by
  obtain ⟨h1, h2, h3, h4⟩ := h
  refine ⟨?_, ?_, ?_, ?_⟩
  · intro x hx
    simp only [MinesweeperAI.mark_mine, Finset.mem_insert] at hx
    rcases hx with rfl | hx
    · exact hc
    · exact h1 x hx
  · intro x hx
    simp only [MinesweeperAI.mark_mine] at hx
    exact h2 x hx
  · intro x hx
    simp only [MinesweeperAI.mark_mine] at hx ⊢
    exact h3 x hx
  · intro s hs
    simp only [MinesweeperAI.mark_mine, List.mem_map] at hs
    obtain ⟨s0, hs0, rfl⟩ := hs
    exact sentTruthful_mark_mine hc (h4 s0 hs0)

theorem Inv_mark_safe {M : Finset Cell} {st : MinesweeperAI} {c : Cell}
    (h : Inv M st) (hc : c ∉ M) : Inv M (st.mark_safe c) := by
  obtain ⟨h1, h2, h3, h4⟩ := h
  refine ⟨?_, ?_, ?_, ?_⟩
  · intro x hx
    simp only [MinesweeperAI.mark_safe] at hx
    exact h1 x hx
  · intro x hx
    simp only [MinesweeperAI.mark_safe, Finset.mem_insert] at hx
    rcases hx with rfl | hx
    · exact hc
    · exact h2 x hx
  · intro x hx
    simp only [MinesweeperAI.mark_safe, Finset.mem_insert] at hx ⊢
    exact Or.inr (h3 x hx)
  · intro s hs
    simp only [MinesweeperAI.mark_safe, List.mem_map] at hs
    obtain ⟨s0, hs0, rfl⟩ := hs
    exact sentTruthful_mark_safe hc (h4 s0 hs0)

theorem Inv_toInvAt {M : Finset Cell} {st : MinesweeperAI} (h : Inv M st) (idx : ℕ) :
    InvAt M st idx :=
  ⟨h.1, h.2.1, h.2.2.1, fun _ _ s hs => h.2.2.2 s (List.getElem?_mem hs)⟩

theorem InvAt_toInv {M : Finset Cell} {st : MinesweeperAI} {idx : ℕ}
    (h : InvAt M st idx) (hidx : ∀ s, st.knowledge[idx]? = some s → sentTruthful M s) :
    Inv M st := by
  refine ⟨h.1, h.2.1, h.2.2.1, ?_⟩
  intro s hs
  obtain ⟨k, hk⟩ := List.mem_iff_getElem?.mp hs
  by_cases hki : k = idx
  · exact hidx s (hki ▸ hk)
  · exact h.2.2.2 k hki s hk

theorem InvAt_mark_mine {M : Finset Cell} {st : MinesweeperAI} {c : Cell} {idx : ℕ}
    (h : InvAt M st idx) (hc : c ∈ M) : InvAt M (st.mark_mine c) idx := by
  obtain ⟨h1, h2, h3, h4⟩ := h
  refine ⟨?_, ?_, ?_, ?_⟩
  · intro x hx
    simp only [MinesweeperAI.mark_mine, Finset.mem_insert] at hx
    rcases hx with rfl | hx
    · exact hc
    · exact h1 x hx
  · intro x hx
    simp only [MinesweeperAI.mark_mine] at hx
    exact h2 x hx
  · intro x hx
    simp only [MinesweeperAI.mark_mine] at hx ⊢
    exact h3 x hx
  · intro k hk s hs
    simp only [MinesweeperAI.mark_mine, List.getElem?_map] at hs
    cases hg : st.knowledge[k]? with
    | none => rw [hg] at hs; exact absurd hs (by simp)
    | some s0 =>
      rw [hg, Option.map_some'] at hs
      injection hs with hs
      rw [← hs]
      exact sentTruthful_mark_mine hc (h4 k hk s0 hg)

theorem InvAt_mark_safe {M : Finset Cell} {st : MinesweeperAI} {c : Cell} {idx : ℕ}
    (h : InvAt M st idx) (hc : c ∉ M) : InvAt M (st.mark_safe c) idx := by
  obtain ⟨h1, h2, h3, h4⟩ := h
  refine ⟨?_, ?_, ?_, ?_⟩
  · intro x hx
    simp only [MinesweeperAI.mark_safe] at hx
    exact h1 x hx
  · intro x hx
    simp only [MinesweeperAI.mark_safe, Finset.mem_insert] at hx
    rcases hx with rfl | hx
    · exact hc
    · exact h2 x hx
  · intro x hx
    simp only [MinesweeperAI.mark_safe, Finset.mem_insert] at hx ⊢
    exact Or.inr (h3 x hx)
  · intro k hk s hs
    simp only [MinesweeperAI.mark_safe, List.getElem?_map] at hs
    cases hg : st.knowledge[k]? with
    | none => rw [hg] at hs; exact absurd hs (by simp)
    | some s0 =>
      rw [hg, Option.map_some'] at hs
      injection hs with hs
      rw [← hs]
      exact sentTruthful_mark_safe hc (h4 k hk s0 hg)

/- ------------------------------------------------------------------ -/
/- Invariant preservation: the drains.                                 -/
/- ------------------------------------------------------------------ -/

theorem drainSafe1_inv {M : Finset Cell} (idx : ℕ) :
    ∀ (fuel : ℕ) (st : MinesweeperAI), Inv M st →
      (∀ s, st.knowledge[idx]? = some s → s.count = 0) →
      Inv M (drainSafe1 idx fuel st) := by
  intro fuel
  induction fuel with
  | zero => intro st h _; exact h
  | succ n ih =>
    intro st h h0
    cases hp : popAt st idx with
    | none => simpa [drainSafe1, hp] using h
    | some p =>
      obtain ⟨c, st1⟩ := p
      obtain ⟨s, rest, hk, hcells, rfl⟩ := popAt_spec hp
      simp only [drainSafe1, hp]
      have hlt : idx < st.knowledge.length := getElem?_some_lt hk
      have hs0 : s.count = 0 := h0 s hk
      have hst : sentTruthful M s := h.2.2.2 s (List.getElem?_mem hk)
      have hz : countIn M (c :: rest) = 0 := by
        have h1 := hst.2 (by rw [hcells]; simp)
        rw [hcells] at h1
        omega
      have hcM : c ∉ M := countIn_eq_zero hz c (List.mem_cons_self c rest)
      have hrest : countIn M rest = 0 := by
        rw [countIn_cons_not_mem rest hcM] at hz
        exact hz
      have hndrest : rest.Nodup := by
        have hnd := hst.1
        rw [hcells] at hnd
        exact (List.nodup_cons.mp hnd).2
      have hinv1 :
          Inv M { st with knowledge := st.knowledge.set idx { cells := rest, count := s.count } } := by
        refine ⟨h.1, h.2.1, h.2.2.1, ?_⟩
        intro s' hs'
        cases List.mem_or_eq_of_mem_set hs' with
        | inl hmem => exact h.2.2.2 s' hmem
        | inr heq =>
          subst heq
          refine ⟨hndrest, ?_⟩
          intro _
          dsimp only
          omega
      refine ih _ (Inv_mark_safe hinv1 hcM) ?_
      intro s' hs'
      simp only [MinesweeperAI.mark_safe, List.getElem?_map,
        List.getElem?_set_self (by simpa using hlt), Option.map_some'] at hs'
      injection hs' with hs'
      rw [← hs', Sentence.mark_safe_count]
      exact hs0

theorem drainMine1_invAt {M : Finset Cell} (idx : ℕ) :
    ∀ (fuel : ℕ) (st : MinesweeperAI), InvAt M st idx →
      (∀ s, st.knowledge[idx]? = some s → ∀ c ∈ s.cells, c ∈ M) →
      InvAt M (drainMine1 idx fuel st) idx := by
  intro fuel
  induction fuel with
  | zero => intro st h _; exact h
  | succ n ih =>
    intro st h hall
    cases hp : popAt st idx with
    | none => simpa [drainMine1, hp] using h
    | some p =>
      obtain ⟨c, st1⟩ := p
      obtain ⟨s, rest, hk, hcells, rfl⟩ := popAt_spec hp
      simp only [drainMine1, hp]
      have hlt : idx < st.knowledge.length := getElem?_some_lt hk
      have hcM : c ∈ M := hall s hk c (by rw [hcells]; exact List.mem_cons_self c rest)
      have hAt1 :
          InvAt M { st with knowledge := st.knowledge.set idx { cells := rest, count := s.count } }
            idx := by
        refine ⟨h.1, h.2.1, h.2.2.1, ?_⟩
        intro k hki s' hs'
        rw [List.getElem?_set_ne (Ne.symm hki)] at hs'
        exact h.2.2.2 k hki s' hs'
      refine ih _ (InvAt_mark_mine hAt1 hcM) ?_
      intro s' hs' x hx
      simp only [MinesweeperAI.mark_mine, List.getElem?_map,
        List.getElem?_set_self (by simpa using hlt), Option.map_some'] at hs'
      injection hs' with hs'
      rw [← hs'] at hx
      have hxrest : x ∈ rest := by
        revert hx
        unfold Sentence.mark_mine
        split
        · intro hx
          exact List.erase_subset _ _ hx
        · intro hx
          exact hx
      exact hall s hk x (by rw [hcells]; exact List.mem_cons_of_mem c hxrest)

theorem drainMine1_empty (idx : ℕ) :
    ∀ (l : List Cell) (st : MinesweeperAI) (cnt : ℤ),
      st.knowledge[idx]? = some { cells := l, count := cnt } → l.Nodup →
      (drainMine1 idx l.length st).knowledge[idx]? = some { cells := [], count := cnt } := by
  intro l
  induction l with
  | nil => intro st cnt hk _; simpa [drainMine1] using hk
  | cons c rest ih =>
    intro st cnt hk hnd
    have hlt : idx < st.knowledge.length := getElem?_some_lt hk
    have hp : popAt st idx = some (c,
        { st with knowledge := st.knowledge.set idx { cells := rest, count := cnt } }) := by
      unfold popAt
      rw [hk]
    simp only [List.length_cons, drainMine1, hp]
    have hcr : c ∉ rest := (List.nodup_cons.mp hnd).1
    have hk1 : (({ st with knowledge := st.knowledge.set idx { cells := rest, count := cnt } } :
        MinesweeperAI).mark_mine c).knowledge[idx]? = some { cells := rest, count := cnt } := by
      simp only [MinesweeperAI.mark_mine, List.getElem?_map,
        List.getElem?_set_self (by simpa using hlt), Option.map_some']
      unfold Sentence.mark_mine
      simp [hcr]
    exact ih _ cnt hk1 (List.nodup_cons.mp hnd).2

theorem drainSafe2_invAt {M : Finset Cell} (idx : ℕ) :
    ∀ (fuel : ℕ) (st : MinesweeperAI), InvAt M st idx →
      (∀ s, st.knowledge[idx]? = some s → ∀ c ∈ s.cells, c ∈ M → c ∈ st.mines) →
      InvAt M (drainSafe2 idx fuel st) idx := by
  intro fuel
  induction fuel with
  | zero => intro st h _; exact h
  | succ n ih =>
    intro st h hall
    cases hp : popAt st idx with
    | none => simpa [drainSafe2, hp] using h
    | some p =>
      obtain ⟨c, st1⟩ := p
      obtain ⟨s, rest, hk, hcells, rfl⟩ := popAt_spec hp
      simp only [drainSafe2, hp]
      have hlt : idx < st.knowledge.length := getElem?_some_lt hk
      have hAt1 :
          InvAt M { st with knowledge := st.knowledge.set idx { cells := rest, count := s.count } }
            idx := by
        refine ⟨h.1, h.2.1, h.2.2.1, ?_⟩
        intro k hki s' hs'
        rw [List.getElem?_set_ne (Ne.symm hki)] at hs'
        exact h.2.2.2 k hki s' hs'
      split
      · refine ih _ hAt1 ?_
        intro s' hs' x hx hxM
        simp only [List.getElem?_set_self (by simpa using hlt)] at hs'
        injection hs' with hs'
        rw [← hs'] at hx
        exact hall s hk x (by rw [hcells]; exact List.mem_cons_of_mem c hx) hxM
      · rename_i hskip
        have hcM : c ∉ M := by
          intro hcM
          exact hskip (Or.inl (hall s hk c (by rw [hcells]; exact List.mem_cons_self c rest) hcM))
        refine ih _ (InvAt_mark_safe hAt1 hcM) ?_
        intro s' hs' x hx
        simp only [MinesweeperAI.mark_safe, List.getElem?_map,
          List.getElem?_set_self (by simpa using hlt), Option.map_some'] at hs'
        injection hs' with hs'
        rw [← hs'] at hx
        have hxrest : x ∈ rest := by
          revert hx
          unfold Sentence.mark_safe
          split
          · intro hx
            exact List.erase_subset _ _ hx
          · intro hx
            exact hx
        intro hxM
        exact hall s hk x (by rw [hcells]; exact List.mem_cons_of_mem c hxrest) hxM

theorem drainSafe2_empty (idx : ℕ) :
    ∀ (l : List Cell) (st : MinesweeperAI) (cnt : ℤ),
      st.knowledge[idx]? = some { cells := l, count := cnt } → l.Nodup →
      (drainSafe2 idx l.length st).knowledge[idx]? = some { cells := [], count := cnt } := by
  intro l
  induction l with
  | nil => intro st cnt hk _; simpa [drainSafe2] using hk
  | cons c rest ih =>
    intro st cnt hk hnd
    have hlt : idx < st.knowledge.length := getElem?_some_lt hk
    have hp : popAt st idx = some (c,
        { st with knowledge := st.knowledge.set idx { cells := rest, count := cnt } }) := by
      unfold popAt
      rw [hk]
    simp only [List.length_cons, drainSafe2, hp]
    have hcr : c ∉ rest := (List.nodup_cons.mp hnd).1
    have hndr : rest.Nodup := (List.nodup_cons.mp hnd).2
    split
    · exact ih _ cnt (by simp only [List.getElem?_set_self (by simpa using hlt)]) hndr
    · have hk1 : (({ st with knowledge := st.knowledge.set idx { cells := rest, count := cnt } } :
          MinesweeperAI).mark_safe c).knowledge[idx]? = some { cells := rest, count := cnt } := by
        simp only [MinesweeperAI.mark_safe, List.getElem?_map,
          List.getElem?_set_self (by simpa using hlt), Option.map_some']
        unfold Sentence.mark_safe
        simp [hcr]
      exact ih _ cnt hk1 hndr

/- ------------------------------------------------------------------ -/
/- Invariant preservation: loops, propagation, observation.            -/
/- ------------------------------------------------------------------ -/

theorem loop1Body_inv {M : Finset Cell} {st : MinesweeperAI} (h : Inv M st) (idx : ℕ) :
    Inv M (loop1Body st idx) := by
  unfold loop1Body
  split
  · exact h
  · rename_i e hk
    split
    · rename_i h0
      exact drainSafe1_inv idx e.cells.length st h fun s hs => by
        rw [hk] at hs
        injection hs with hs
        rw [← hs]
        exact h0
    · split
      · rename_i h0 hlen
        have hme : e ∈ st.knowledge := List.getElem?_mem hk
        have ht := h.2.2.2 e hme
        have hne : e.cells ≠ [] := by
          intro hnil
          rw [hnil] at hlen
          simp only [List.length_nil, Nat.cast_zero] at hlen
          exact h0 hlen
        have hall : ∀ c ∈ e.cells, c ∈ M := by
          apply countIn_eq_length
          have htr := ht.2 hne
          omega
        have h1 := drainMine1_invAt idx e.cells.length st (Inv_toInvAt h idx) fun s hs => by
          rw [hk] at hs
          injection hs with hs
          rw [← hs]
          exact hall
        have h2 := drainMine1_empty idx e.cells st e.count (by rw [hk]) ht.1
        apply InvAt_toInv h1
        intro s hs
        rw [h2] at hs
        injection hs with hs
        rw [← hs]
        exact ⟨List.nodup_nil, fun hne2 => absurd rfl hne2⟩
      · exact h

theorem loop2Body_inv {M : Finset Cell} {st : MinesweeperAI} (h : Inv M st) (idx : ℕ) :
    Inv M (loop2Body st idx) := by
  unfold loop2Body
  split
  · exact h
  · rename_i s hk
    split
    · exact h
    · split
      · rename_i hlen hcnt
        have hms : s ∈ st.knowledge := List.getElem?_mem hk
        have ht := h.2.2.2 s hms
        have hne : s.cells ≠ [] := by
          intro h0
          rw [h0] at hlen
          exact hlen rfl
        have htr := ht.2 hne
        have heq : countIn M s.cells = countIn st.mines s.cells := by omega
        have hprop := countIn_subset_eq s.cells (fun c _ hm => h.1 c hm) heq
        have h1 := drainSafe2_invAt idx s.cells.length st (Inv_toInvAt h idx) fun s' hs' => by
          rw [hk] at hs'
          injection hs' with hs'
          rw [← hs']
          exact hprop
        have h2 := drainSafe2_empty idx s.cells st s.count (by rw [hk]) ht.1
        apply InvAt_toInv h1
        intro s' hs'
        rw [h2] at hs'
        injection hs' with hs'
        rw [← hs']
        exact ⟨List.nodup_nil, fun hne2 => absurd rfl hne2⟩
      · exact h

theorem foldl_inv {M : Finset Cell} (f : MinesweeperAI → ℕ → MinesweeperAI)
    (hf : ∀ st i, Inv M st → Inv M (f st i)) :
    ∀ (l : List ℕ) (st : MinesweeperAI), Inv M st → Inv M (l.foldl f st) := by
  intro l
  induction l with
  | nil => intro st h; exact h
  | cons i t ih => intro st h; exact ih (f st i) (hf st i h)

theorem propagate_inv {M : Finset Cell} {st : MinesweeperAI} (h : Inv M st) :
    Inv M (propagate st) := by
  unfold propagate
  exact foldl_inv loop2Body (fun st1 i hi => loop2Body_inv hi i) _ _
    (foldl_inv loop1Body (fun st1 i hi => loop1Body_inv hi i) _ _ h)

theorem neighborhood_nodup (cell : Cell) : (neighborhood cell).Nodup := by
  obtain ⟨a, b⟩ := cell
  simp [neighborhood, Prod.ext_iff]
  omega

theorem candidateCells_nodup (st : MinesweeperAI) (cell : Cell) :
    (candidateCells st cell).Nodup :=
  (neighborhood_nodup cell).filter _

theorem countIn_candidate {M : Finset Cell} {st : MinesweeperAI} {cell : Cell}
    (hmoves : ∀ c ∈ st.moves_made, c ∉ M) (hsafes : ∀ c ∈ st.safes, c ∉ M) :
    (countIn M (candidateCells st cell) : ℤ) = nearby_mines M st.height st.width cell := by
  have hfilters : (candidateCells st cell).filter (fun c => decide (c ∈ M)) =
      (neighborhood cell).filter (fun p => decide (p ≠ cell ∧ 0 ≤ p.1 ∧ p.1 < st.height ∧
        0 ≤ p.2 ∧ p.2 < st.width ∧ p ∈ M)) := by
    unfold candidateCells
    rw [List.filter_filter]
    apply List.filter_congr
    intro p _
    rw [← Bool.decide_and, decide_eq_decide]
    constructor
    · rintro ⟨hM, hno, hb1, hb2, hb3, hb4⟩
      exact ⟨fun e => hno (Or.inl e), hb1, hb2, hb3, hb4, hM⟩
    · rintro ⟨hne, hb1, hb2, hb3, hb4, hM⟩
      refine ⟨hM, ?_, hb1, hb2, hb3, hb4⟩
      rintro (e | hmv | hsf)
      · exact hne e
      · exact hmoves p hmv hM
      · exact hsafes p hsf hM
  unfold countIn nearby_mines
  rw [hfilters]

theorem add_knowledge_inv {M : Finset Cell} {st : MinesweeperAI} {cell : Cell} {count : ℤ}
    (h : Inv M st) (hcell : cell ∉ M)
    (hcount : count = nearby_mines M st.height st.width cell) :
    Inv M (st.add_knowledge cell count) := by
  unfold MinesweeperAI.add_knowledge
  apply propagate_inv
  refine ⟨?_, ?_, ?_, ?_⟩
  · intro x hx
    simp only [MinesweeperAI.mark_safe] at hx
    exact h.1 x hx
  · intro x hx
    simp only [MinesweeperAI.mark_safe, Finset.mem_insert] at hx
    rcases hx with rfl | hx
    · exact hcell
    · exact h.2.1 x hx
  · intro x hx
    simp only [MinesweeperAI.mark_safe, Finset.mem_insert] at hx ⊢
    rcases hx with rfl | hx
    · exact Or.inl rfl
    · exact Or.inr (h.2.2.1 x hx)
  · intro s hs
    simp only [MinesweeperAI.mark_safe, List.mem_append, List.mem_map,
      List.mem_singleton] at hs
    rcases hs with ⟨s0, hs0, rfl⟩ | rfl
    · exact sentTruthful_mark_safe hcell (h.2.2.2 s0 hs0)
    · refine ⟨candidateCells_nodup st cell, ?_⟩
      intro _
      dsimp only
      rw [countIn_candidate (fun c hc => h.2.1 c (h.2.2.1 c hc)) h.2.1]
      exact hcount.symm

theorem Inv_init (M : Finset Cell) (h w : ℤ) : Inv M (MinesweeperAI.init h w) := by
  refine ⟨?_, ?_, ?_, ?_⟩ <;> intro x hx <;> simp [MinesweeperAI.init] at hx

theorem runOps_inv (M : Finset Cell) :
    ∀ (ops : List Op) (st : MinesweeperAI), Inv M st →
      truthfulRun M st ops = true → Inv M (runOps st ops) := by
  intro ops
  induction ops with
  | nil => intro st h _; exact h
  | cons op rest ih =>
    intro st h ht
    simp only [truthfulRun, Bool.and_eq_true] at ht
    obtain ⟨h1, h2⟩ := ht
    refine ih _ ?_ h2
    cases op with
    | addKnowledge c n =>
      simp only [opTruthful, Bool.and_eq_true, decide_eq_true_eq] at h1
      exact add_knowledge_inv h h1.1 h1.2
    | markMine c =>
      simp only [opTruthful, decide_eq_true_eq] at h1
      exact Inv_mark_mine h h1
    | markSafe c =>
      simp only [opTruthful, decide_eq_true_eq] at h1
      exact Inv_mark_safe h h1
    | safeMoveQuery => exact h
    | randomMoveQuery => exact h

/- ------------------------------------------------------------------ -/
/- Claim theorems.                                                     -/
/- ------------------------------------------------------------------ -/

/-- **C1.** The claim states that propagation performs subset inference:
from `{1,2,3} = 1` and `{1,2,3,4} = 2` it should derive `{4} = 1` and put
cell 4 into `mines`.  The code contains no subset-inference step at all:
running the propagation of `add_knowledge` on exactly that knowledge base
leaves the state completely unchanged — no sentence `{4} = 1` appears and
cell `4` (here `(0,4)`) is not added to `mines`. -/
theorem c1_no_subset_inference :
    propagate subsetPairState = subsetPairState ∧
    ((0, 4) : Cell) ∉ (propagate subsetPairState).mines ∧
    ({ cells := [(0, 4)], count := 1 } : Sentence) ∉ (propagate subsetPairState).knowledge := by
  decide

/-- **C2.** The claim states that no sentence in the knowledge base ever
contains a cell in `safes ∪ mines`, the observe-constructed sentence
excluding known mines with a count adjustment.  The code's candidate loop
excludes only `moves_made` and `safes`, never `mines`, and makes no count
adjustment: after `mark_mine((0,1))` on a fresh 2×2 solver followed by
`add_knowledge((0,0), 2)`, the knowledge base holds the sentence
`{(0,1),(1,0),(1,1)} = 2` while `(0,1) ∈ mines`. -/
theorem c2_sentence_retains_known_mine :
    mineRetainState.knowledge = [{ cells := [(0, 1), (1, 0), (1, 1)], count := 2 }] ∧
    ((0, 1) : Cell) ∈ mineRetainState.mines := by
  decide

/-- **C3.** The claim states that `0 ≤ count ≤ |cells|` holds for every
sentence after each `add_knowledge` call, including sentences drained by
the all-mines branch.  The all-mines drain pops every cell from the
sentence but `mark_mine` never decrements that same sentence's count
(the popped cell is already gone from it): `add_knowledge((0,0), 3)` on a
fresh 2×2 solver terminates with the sentence `∅ = 3`, violating
`count ≤ |cells|`. -/
theorem c3_count_bound_violated :
    ((MinesweeperAI.init 2 2).add_knowledge (0, 0) 3).knowledge =
      [{ cells := [], count := 3 }] ∧
    ¬ (∀ s ∈ ((MinesweeperAI.init 2 2).add_knowledge (0, 0) 3).knowledge,
        0 ≤ s.count ∧ s.count ≤ (s.cells.length : ℤ)) := by
  decide

/-- **C4** (counterexample).  The claim quantifies over arbitrary
sequences of public operations; `mark_mine((0,0))` followed by
`mark_safe((0,0))` on a fresh solver leaves `(0,0)` in both `mines` and
`safes`, so `safes ∩ mines ≠ ∅` in a reachable state. -/
theorem c4_disjointness_counterexample :
    ((0, 0) : Cell) ∈
      (runOps (MinesweeperAI.init 2 2) [Op.markMine (0, 0), Op.markSafe (0, 0)]).safes ∩
      (runOps (MinesweeperAI.init 2 2) [Op.markMine (0, 0), Op.markSafe (0, 0)]).mines := by
  decide

/-- **C4** (amended).  For every sequence of public operations that is
truthful for some fixed mine set `M` — `mark_mine` only on cells of `M`,
`mark_safe` only on cells outside `M`, and `add_knowledge(cell, count)`
only with a non-mine `cell` and `count` the true number of `M`-mines
among the in-bounds neighbors of `cell` — every reachable state satisfies
`safes ∩ mines = ∅`. -/
theorem c4_truthful_disjointness (M : Finset Cell) (h w : ℤ) (ops : List Op)
    (ht : truthfulRun M (MinesweeperAI.init h w) ops = true) :
    (runOps (MinesweeperAI.init h w) ops).safes ∩
      (runOps (MinesweeperAI.init h w) ops).mines = ∅ := by
  have hinv := runOps_inv M ops (MinesweeperAI.init h w) (Inv_init M h w) ht
  ext c
  simp only [Finset.mem_inter, Finset.not_mem_empty, iff_false, not_and]
  intro hs hm
  exact hinv.2.1 c hs (hinv.1 c hm)

/-- **C4** (witness).  A concrete truthful run on a 2×2 grid whose only
mine is `(0,1)`: flag the mine, then observe `(0,0)` with its true
neighbor count 1; the resulting `safes` and `mines` are disjoint. -/
theorem c4_truthful_disjointness_witness :
    truthfulRun {((0, 1) : Cell)} (MinesweeperAI.init 2 2)
      [Op.markMine (0, 1), Op.addKnowledge (0, 0) 1] = true ∧
    (runOps (MinesweeperAI.init 2 2) [Op.markMine (0, 1), Op.addKnowledge (0, 0) 1]).safes ∩
      (runOps (MinesweeperAI.init 2 2) [Op.markMine (0, 1), Op.addKnowledge (0, 0) 1]).mines
      = ∅ :=
  ⟨by decide, c4_truthful_disjointness {((0, 1) : Cell)} 2 2
    [Op.markMine (0, 1), Op.addKnowledge (0, 0) 1] (by decide)⟩

/-- **C5.** The claim states that resolution is applied to a fixpoint, so
constraints that become all-mines through marks made during the same
propagation are resolved before `observe` returns.  The code makes a
single pass: on a 1×4 grid (mine at `(0,0)`), `add_knowledge((0,1), 1)`
followed by `add_knowledge((0,3), 0)` ends with the sentence
`{(0,0)} = 1` — count equal to its cardinality, `count ≥ 1` — while
`mines` is still empty. -/
theorem c5_single_pass_misses_mine :
    (((MinesweeperAI.init 1 4).add_knowledge (0, 1) 1).add_knowledge (0, 3) 0).knowledge =
      [{ cells := [(0, 0)], count := 1 }, { cells := [], count := 0 }] ∧
    (((MinesweeperAI.init 1 4).add_knowledge (0, 1) 1).add_knowledge (0, 3) 0).mines = ∅ := by
  decide

/-- **C6.** The claim states that `make_random_move` returns a uniformly
random cell of the full grid minus `movesMade ∪ mines` and is absent
exactly when that set is empty.  The code scans only
`range(width−1) × range(height−1)`: on a fresh 1×2 solver the scan is
empty — `range(height−1) = range(0)` — and the function returns nothing
although both grid cells are eligible (`moves_made` and `mines` are
empty). -/
theorem c6_random_move_misses_cells :
    MinesweeperAI.make_random_move (MinesweeperAI.init 1 2) = none ∧
    (MinesweeperAI.init 1 2).moves_made = ∅ ∧ (MinesweeperAI.init 1 2).mines = ∅ := by
  decide

/-- **C7** (counterexample).  Marking an already-known mine again is not a
no-op: in `mineRetainState` the cell `(0,1)` is in `mines` yet still
occurs in a sentence (see C2), so a second `mark_mine((0,1))` shrinks
that sentence and decrements its count. -/
theorem c7_idempotence_counterexample :
    ((0, 1) : Cell) ∈ mineRetainState.mines ∧
    (mineRetainState.mark_mine (0, 1)).knowledge ≠ mineRetainState.knowledge := by
  decide

/-- **C7** (amended).  `mark_mine` on a cell already in `mines` (resp.
`mark_safe` on a cell already in `safes`) changes no observable state
provided the cell is absent from every sentence's cell set — the proviso
the original claim took for granted and the code does not guarantee. -/
theorem c7_marks_idempotent_outside_sentences (st : MinesweeperAI) (c : Cell)
    (hclear : ∀ s ∈ st.knowledge, c ∉ s.cells) :
    (c ∈ st.mines → st.mark_mine c = st) ∧ (c ∈ st.safes → st.mark_safe c = st) := by
  have hmapM : st.knowledge.map (fun s => s.mark_mine c) = st.knowledge := by
    conv_rhs => rw [← List.map_id st.knowledge]
    exact List.map_congr_left fun s hs => by simp [Sentence.mark_mine, hclear s hs]
  have hmapS : st.knowledge.map (fun s => s.mark_safe c) = st.knowledge := by
    conv_rhs => rw [← List.map_id st.knowledge]
    exact List.map_congr_left fun s hs => by simp [Sentence.mark_safe, hclear s hs]
  constructor
  · intro hm
    cases st with
    | mk h w mm mi sa kn =>
      simp_all [MinesweeperAI.mark_mine, Finset.insert_eq_self]
  · intro hs
    cases st with
    | mk h w mm mi sa kn =>
      simp_all [MinesweeperAI.mark_safe, Finset.insert_eq_self]

/-- **C7** (witness).  In the state where `(0,0)` is recorded both as a
mine and as safe and the knowledge base is empty, re-marking it either
way is the identity. -/
theorem c7_idempotence_witness :
    MinesweeperAI.mark_mine doubleMarkState (0, 0) = doubleMarkState ∧
    MinesweeperAI.mark_safe doubleMarkState (0, 0) = doubleMarkState :=
  ⟨(c7_marks_idempotent_outside_sentences doubleMarkState (0, 0) (by decide)).1 (by decide),
   (c7_marks_idempotent_outside_sentences doubleMarkState (0, 0) (by decide)).2 (by decide)⟩

/-- **C8** (counterexample).  On the vacuous sentence `∅ = 0` the claim
requires both resolvers to be absent; the code returns the (empty) cell
set from both: `known_mines` tests only `len(cells) == count` and
`known_safes` only `count == 0`. -/
theorem c8_vacuous_counterexample :
    Sentence.known_mines { cells := [], count := 0 } = some [] ∧
    Sentence.known_safes { cells := [], count := 0 } = some [] := by
  decide

/-- **C8** (amended).  `known_mines` returns the full cell set exactly
when `count = |cells|` — including for the vacuous sentence `∅ = 0`,
where it returns the empty set rather than being absent — and
`known_safes` returns the full cell set exactly when `count = 0`,
regardless of whether `cells` is empty. -/
theorem c8_resolvers_exact (s : Sentence) :
    (s.known_mines = some s.cells ↔ (s.cells.length : ℤ) = s.count) ∧
    (s.known_safes = some s.cells ↔ s.count = 0) ∧
    (s.known_mines = none ↔ (s.cells.length : ℤ) ≠ s.count) ∧
    (s.known_safes = none ↔ s.count ≠ 0) := by
  unfold Sentence.known_mines Sentence.known_safes
  refine ⟨?_, ?_, ?_, ?_⟩ <;> split <;> simp_all

/-- **C9** (counterexample).  The claim requires an invalid-argument
failure when `observe` is called on an already-queried or out-of-range
cell.  The code performs no validation whatsoever: observing `(0,0)`
twice on a 1×2 solver simply appends a second sentence, and observing the
out-of-range cell `(5,5)` records it as a move and appends the (empty)
candidate sentence `∅ = 1`. -/
theorem c9_no_failure_counterexample :
    (((MinesweeperAI.init 1 2).add_knowledge (0, 0) 0).add_knowledge (0, 0) 0).knowledge.length
      = 2 ∧
    ((MinesweeperAI.init 1 2).add_knowledge (5, 5) 1).knowledge =
      [{ cells := [], count := 1 }] ∧
    ((5, 5) : Cell) ∈ ((MinesweeperAI.init 1 2).add_knowledge (5, 5) 1).moves_made := by
  decide

/-- **C9** (amended).  `add_knowledge` never signals a failure: for every
state and every cell — already queried or arbitrarily far out of range —
it proceeds normally, adding the cell to `moves_made` and appending
exactly one sentence to the knowledge base. -/
theorem c9_add_knowledge_total (st : MinesweeperAI) (cell : Cell) (count : ℤ) :
    (st.add_knowledge cell count).knowledge.length = st.knowledge.length + 1 ∧
    (st.add_knowledge cell count).moves_made = insert cell st.moves_made :=
  add_knowledge_frame st cell count

/-- **C10.** Every `add_knowledge` call appends exactly one sentence, the
mark operations and the move queries never remove one, so after any
sequence of public operations from a fresh solver the size of the
knowledge base equals the number of `add_knowledge` calls made. -/
theorem c10_knowledge_length_eq_adds (h w : ℤ) (ops : List Op) :
    (runOps (MinesweeperAI.init h w) ops).knowledge.length = countAdds ops := by
  have main : ∀ (l : List Op) (st : MinesweeperAI),
      (runOps st l).knowledge.length = st.knowledge.length + countAdds l := by
    intro l
    induction l with
    | nil => intro st; simp [runOps, countAdds]
    | cons op rest ih =>
      intro st
      cases op with
      | addKnowledge c n =>
        simp only [runOps, applyOp, countAdds]
        rw [ih, (add_knowledge_frame st c n).1]
        omega
      | markSafe c =>
        simp only [runOps, applyOp, countAdds]
        rw [ih, (mark_safe_frame st c).1]
      | markMine c =>
        simp only [runOps, applyOp, countAdds]
        rw [ih, (mark_mine_frame st c).1]
      | safeMoveQuery => simp only [runOps, applyOp, countAdds]; rw [ih]
      | randomMoveQuery => simp only [runOps, applyOp, countAdds]; rw [ih]
  simpa [MinesweeperAI.init] using main ops (MinesweeperAI.init h w)

end MinesweeperProof
